import Mathlib

/-!
Verification development for the hit-aggregation subsystem of a distributed
sequence-search daemon (src/src/daemon/p7_hitlist.h).

The header file gives the data structures (`P7_HITLIST_ENTRY`, `P7_HIT_CHUNK`,
`P7_HITLIST`), the constants `HITLIST_POOL_SIZE` and `HIT_MESSAGE_LIMIT`, and
the declarations plus documentation of the operations; the function bodies are
not part of the available sources.  The structures are embedded directly from
the header: doubly linked lists become Lean `List`s (prev/next pointers become
list adjacency), `uint64_t` object IDs become `Nat` (IDs are only compared,
never subjected to wrapping arithmetic, so no modular reduction is needed).
Operations whose bodies are missing are modelled from the specification, each
marked `Modelled from the spec:` in its doc comment.
-/

namespace P7Hitlist

/-- From src/src/daemon/p7_hitlist.h line 29: default size of each engine's
hitlist pool. -/
def HITLIST_POOL_SIZE : Nat := 1000

/-- From src/src/daemon/p7_hitlist.h line 30: soft upper limit on the size of
each message containing hits, in bytes. -/
def HIT_MESSAGE_LIMIT : Nat := 100000

/-- The opaque `P7_HIT` payload (declared in base/p7_tophits.h, outside the
available sources).  Modelled from the spec: an ascending, globally meaningful
object ID, a serialized payload size used by the transport codec, and
references into externally owned shard buffers (the record points into the
daemon's data shard; those buffers are not owned by this subsystem). -/
structure P7_HIT where
  id : Nat
  payloadSize : Nat
  shardRefs : List Nat
deriving DecidableEq, Repr

/-- Entry used to form a doubly-linked list of hits
(src/src/daemon/p7_hitlist.h lines 33-39).  The `prev`/`next` pointers are
represented by adjacency in the containing Lean list. -/
structure P7_HITLIST_ENTRY where
  hit : P7_HIT
deriving DecidableEq, Repr

/-- Structure that holds a chunk of hits, sorted by object id
(src/src/daemon/p7_hitlist.h lines 41-60).  `entries` is the run of entries
from the `start` pointer to the `end` pointer; `start_id`/`end_id` cache the
object IDs of the first and last entry.  The chunk's own prev/next pointers
are represented by adjacency in the hitlist's chunk list. -/
structure P7_HIT_CHUNK where
  entries : List P7_HITLIST_ENTRY
  start_id : Nat
  end_id : Nat
deriving DecidableEq, Repr

/-- Holds the full list of hits that a machine has found
(src/src/daemon/p7_hitlist.h lines 62-89).  `entries` is the doubly linked
entry list from `hit_list_start` to `hit_list_end`; `chunks` is the linked
list of chunks from `chunk_list_start` to `chunk_list_end`.  The pthread lock
serializes mutations and has no functional content in a sequential model. -/
structure P7_HITLIST where
  entries : List P7_HITLIST_ENTRY
  hit_list_start_id : Nat
  hit_list_end_id : Nat
  chunks : List P7_HIT_CHUNK
deriving DecidableEq, Repr

/-- The object IDs of a run of entries, in list order. -/
def entryIds (es : List P7_HITLIST_ENTRY) : List Nat :=
  es.map (fun e => e.hit.id)

/-- Executable check that a list of IDs is strictly ascending. -/
def strictAscend : List Nat → Bool
  | [] => true
  | [_] => true
  | a :: b :: t => decide (a < b) && strictAscend (b :: t)

/-- Well-formedness of a chunk, from the header's documented invariant
(lines 3 and 34): the entries of a chunk are sorted in strictly ascending
order of object ID, the chunk is nonempty, and `start_id`/`end_id` cache the
IDs of its first and last entry. -/
def chunkWF (c : P7_HIT_CHUNK) : Prop :=
  c.entries ≠ [] ∧
  strictAscend (entryIds c.entries) = true ∧
  (entryIds c.entries).head? = some c.start_id ∧
  (entryIds c.entries).getLast? = some c.end_id

instance (c : P7_HIT_CHUNK) : Decidable (chunkWF c) :=
  inferInstanceAs (Decidable (_ ≠ [] ∧ _ = true ∧ _ = _ ∧ _ = _))

/-- Chunk `a` lies entirely before chunk `b` in ID order. -/
def chunkBefore (a b : P7_HIT_CHUNK) : Prop :=
  a.end_id < b.start_id

instance (a b : P7_HIT_CHUNK) : Decidable (chunkBefore a b) :=
  inferInstanceAs (Decidable (_ < _))

/-- The ID ranges of two chunks do not intersect
(header lines 10-11: chunks must have non-overlapping ranges of object IDs). -/
def chunkDisjoint (a b : P7_HIT_CHUNK) : Prop :=
  a.end_id < b.start_id ∨ b.end_id < a.start_id

instance (a b : P7_HIT_CHUNK) : Decidable (chunkDisjoint a b) :=
  inferInstanceAs (Decidable (_ < _ ∨ _ < _))

/-- Well-formedness of a hitlist, from the header's documented invariants
(lines 10-14, 34, 67-83): every chunk is well formed; the chunk list is
ordered with pairwise non-overlapping ranges; the entry list is exactly the
concatenation of the chunks' entry runs (each chunk's run is a contiguous
piece of the full list); and the cached global `hit_list_start_id` /
`hit_list_end_id` are the bounds of the first and last chunk (zero-initialized
while the list is empty). -/
def hitlistWF (l : P7_HITLIST) : Prop :=
  (∀ c ∈ l.chunks, chunkWF c) ∧
  l.chunks.Pairwise chunkBefore ∧
  l.entries = l.chunks.flatMap (fun c => c.entries) ∧
  (if l.chunks.isEmpty then
     l.hit_list_start_id = 0 ∧ l.hit_list_end_id = 0
   else
     l.chunks.head?.map (fun c => c.start_id) = some l.hit_list_start_id ∧
     l.chunks.getLast?.map (fun c => c.end_id) = some l.hit_list_end_id)

instance (l : P7_HITLIST) : Decidable (hitlistWF l) :=
  inferInstanceAs (Decidable ((∀ c ∈ l.chunks, chunkWF c) ∧
    l.chunks.Pairwise chunkBefore ∧
    l.entries = l.chunks.flatMap (fun c => c.entries) ∧
    (if l.chunks.isEmpty then
       l.hit_list_start_id = 0 ∧ l.hit_list_end_id = 0
     else
       l.chunks.head?.map (fun c => c.start_id) = some l.hit_list_start_id ∧
       l.chunks.getLast?.map (fun c => c.end_id) = some l.hit_list_end_id)))

/-- Modelled from the spec: `p7_hitlist_Create` (declared at header line 125,
body not in the available sources) creates and returns a new, empty hitlist:
no entries, no chunks, zero-initialized cached bounds. -/
def p7_hitlist_Create : P7_HITLIST :=
  { entries := [], hit_list_start_id := 0, hit_list_end_id := 0, chunks := [] }

/-! ### Entry pool (header lines 95-105) -/

/-- A fixed-capacity free list of preallocated nodes
(`ESL_RED_BLACK_DOUBLEKEY` nodes holding hitlist entries).  Nodes are
identified by index; `totalAllocated` records how many nodes have ever been
allocated, so that an acquisition performing no allocation leaves it
unchanged. -/
structure Pool where
  free : List Nat
  totalAllocated : Nat
deriving DecidableEq, Repr

inductive PoolError where
  | PoolExhausted
deriving DecidableEq, Repr

/-- Modelled from the spec: `p7_hitlist_entry_pool_Create num_entries`
(declared at header line 105, body not in the available sources) builds a
linked free list of `num_entries` preallocated nodes; no allocation occurs
afterward. -/
def p7_hitlist_entry_pool_Create (num_entries : Nat) : Pool :=
  { free := List.range num_entries, totalAllocated := num_entries }

/-- Modelled from the spec: `p7_get_hit_tree_entry_from_pool` (declared at
header line 95, body not in the available sources) returns the node at the
head of the free list, advancing the head, and performs no allocation; it
fails with `PoolExhausted` when the free list is empty. -/
def p7_get_hit_tree_entry_from_pool (p : Pool) : Except PoolError (Nat × Pool) :=
  match p.free with
  | [] => .error .PoolExhausted
  | n :: rest => .ok (n, { free := rest, totalAllocated := p.totalAllocated })

/-- Repeated acquisition: `k` successive `p7_get_hit_tree_entry_from_pool`
calls, collecting the acquired nodes in order. -/
def pool_acquire_many (p : Pool) : Nat → Except PoolError (List Nat × Pool)
  | 0 => .ok ([], p)
  | k + 1 =>
    match p7_get_hit_tree_entry_from_pool p with
    | .error e => .error e
    | .ok (n, p') =>
      match pool_acquire_many p' k with
      | .error e => .error e
      | .ok (ns, p'') => .ok (n :: ns, p'')

/-! ### Destruction (header lines 107-129) -/

/-- A log of what a destructor releases: structural entry nodes, the record
shells embedded in them, chunk nodes, and the external shard buffers it
frees (identified by reference). -/
structure FreeLog where
  entryNodes : Nat
  recordShells : Nat
  chunkNodes : Nat
  shardBufferFrees : List Nat
deriving DecidableEq, Repr

def FreeLog.add (a b : FreeLog) : FreeLog :=
  { entryNodes := a.entryNodes + b.entryNodes
    recordShells := a.recordShells + b.recordShells
    chunkNodes := a.chunkNodes + b.chunkNodes
    shardBufferFrees := a.shardBufferFrees ++ b.shardBufferFrees }

def FreeLog.zero : FreeLog :=
  { entryNodes := 0, recordShells := 0, chunkNodes := 0, shardBufferFrees := [] }

/-- Modelled from the spec: `p7_hitlist_entry_Destroy` (declared at header
line 113, body not in the available sources) destroys a `P7_HITLIST_ENTRY`
and its included `P7_HIT` object; per the header's warning (lines 108-110) it
must NOT free the objects internal to the `P7_HIT`, which are pointers into
the daemon's data shard — so it releases exactly one entry node and one
record shell and frees no shard buffer, whatever the record references. -/
def p7_hitlist_entry_Destroy (_e : P7_HITLIST_ENTRY) : FreeLog :=
  { entryNodes := 1, recordShells := 1, chunkNodes := 0, shardBufferFrees := [] }

/-- Releases every entry of a run in order, accumulating the free log. -/
def destroyEntries : List P7_HITLIST_ENTRY → FreeLog
  | [] => FreeLog.zero
  | e :: es => (p7_hitlist_entry_Destroy e).add (destroyEntries es)

/-- Releases every chunk node of a chunk list (the chunk node itself, not its
entries, which are freed through the hitlist's entry walk). -/
def destroyChunks : List P7_HIT_CHUNK → FreeLog
  | [] => FreeLog.zero
  | _c :: cs =>
    FreeLog.add
      { entryNodes := 0, recordShells := 0, chunkNodes := 1, shardBufferFrees := [] }
      (destroyChunks cs)

/-- Modelled from the spec: `p7_hitlist_Destroy` (declared at header line 129,
body not in the available sources) destroys a hitlist by walking the entry
list, destroying each entry, and walking the chunk list, releasing each chunk
node. -/
def p7_hitlist_Destroy (l : P7_HITLIST) : FreeLog :=
  (destroyEntries l.entries).add (destroyChunks l.chunks)

/-! ### Chunk construction -/

/-- The empty/initial chunk state: no entries, zero-initialized bounds. -/
def p7_hit_chunk_init : P7_HIT_CHUNK :=
  { entries := [], start_id := 0, end_id := 0 }

/-- Modelled from the spec: `chunk_append chunk entry` appends a newly found
hit to a worker's current chunk.  The caller guarantees monotonic discovery
order, so the operation requires `entry.id > chunk.end_id` for a nonempty
chunk (returning `none` on a precondition violation); it appends the entry at
the end, moving the `end` pointer to it and updating `end_id`, in O(1).  On
an empty chunk it installs the entry as both first and last. -/
def chunk_append (c : P7_HIT_CHUNK) (e : P7_HITLIST_ENTRY) : Option P7_HIT_CHUNK :=
  if c.entries.isEmpty then
    some { entries := [e], start_id := e.hit.id, end_id := e.hit.id }
  else if c.end_id < e.hit.id then
    some { entries := c.entries ++ [e], start_id := c.start_id, end_id := e.hit.id }
  else
    none

/-! ### Transport codec (header lines 30-31, 136-160) -/

/-- Serialized byte size of one hit record on the wire: the `uint64` object ID
plus the record's payload. -/
def p7_hit_wire_size (h : P7_HIT) : Nat :=
  8 + h.payloadSize

/-- One wire message: a `uint64` hit-count header followed by `hit_count`
serialized hit records (spec, wire message format). -/
structure HitMessage where
  hit_count : Nat
  records : List P7_HIT
deriving DecidableEq, Repr

/-- Byte size of a wire message: 8-byte count header plus the serialized
records. -/
def messageSize (m : HitMessage) : Nat :=
  8 + (m.records.map p7_hit_wire_size).sum

/-- Modelled from the spec: the greedy batching loop inside
`p7_mpi_send_and_recycle_unsorted_hits` (declared at header line 150, body not
in the available sources), generic over the element type so the same loop
groups hit records and the transport nodes that carry them.  `cur` is the
batch being built (its buffer holds the 8-byte header plus its records).
Whenever appending the next record would make the current buffer exceed the
soft limit `L`, the current buffer is finalized as one message and a new
buffer is started; a record always joins an empty buffer, so no message is
empty. -/
def encodeGo {α : Type} (L : Nat) (sz : α → Nat) (cur : List α) :
    List α → List (List α)
  | [] => if cur.isEmpty then [] else [cur]
  | h :: t =>
    if cur.isEmpty then encodeGo L sz [h] t
    else if 8 + (cur.map sz).sum + sz h ≤ L then encodeGo L sz (cur ++ [h]) t
    else cur :: encodeGo L sz [h] t

/-- Groups a batch under soft limit `L`, starting from an empty buffer. -/
def encodeGroups {α : Type} (L : Nat) (sz : α → Nat) (xs : List α) :
    List (List α) :=
  encodeGo L sz [] xs

/-- Modelled from the spec: the encoding half of the send operation — the
hits of a batch, in transport order, split greedily into wire messages under
soft limit `L`, each carrying its hit count as the first item of the
message. -/
def encodeHits (L : Nat) (hits : List P7_HIT) : List HitMessage :=
  (encodeGroups L p7_hit_wire_size hits).map
    (fun g => { hit_count := g.length, records := g })

/-- Modelled from the spec: the decoding half of
`p7_mpi_recv_and_sort_hits` (declared at header line 160, body not in the
available sources) for one message: read the count header, then reconstruct
that many records; fail on a malformed message whose count disagrees with its
contents. -/
def decodeMessage (m : HitMessage) : Option (List P7_HIT) :=
  if m.hit_count = m.records.length then some m.records else none

/-- Decodes the concatenation of a sequence of wire messages, in order. -/
def decodeMessages : List HitMessage → Option (List P7_HIT)
  | [] => some []
  | m :: ms =>
    match decodeMessage m with
    | none => none
    | some hs =>
      match decodeMessages ms with
      | none => none
      | some rest => some (hs ++ rest)

/-- Largest serialized record size appearing in a batch. -/
def maxRecordSize (hits : List P7_HIT) : Nat :=
  (hits.map p7_hit_wire_size).foldr max 0

/-- First record's serialized size of a group (0 for an empty group). -/
def firstRecordSize {α : Type} (sz : α → Nat) : List α → Nat
  | [] => 0
  | x :: _ => sz x

/-! ### Send and recycle (header lines 136-150) -/

/-- One `ESL_RED_BLACK_DOUBLEKEY` transport node: a pooled node (identified by
`nodeId`) wrapping one hit, chained through the large pointer into an
unsorted send list. -/
structure RBNode where
  nodeId : Nat
  hit : P7_HIT
deriving DecidableEq, Repr

inductive SendStatus where
  | eslOK
  | eslFAIL
deriving DecidableEq, Repr

/-- Returns a finalized message's transport nodes to the workernode's pool. -/
def recycleGroup (g : List RBNode) (p : Pool) : Pool :=
  { free := g.map (fun n => n.nodeId) ++ p.free
    totalAllocated := p.totalAllocated }

/-- Modelled from the spec: the per-message loop of
`p7_mpi_send_and_recycle_unsorted_hits` — each finalized message's nodes are
recycled into the pool as the message's payload is copied out, then the
message is sent; `sendOk i` tells whether the underlying MPI send of the
`i`-th message succeeds.  The loop stops with `eslFAIL` at the first failed
send, and returns `eslOK` after the last message otherwise. -/
def sendGroupsGo (sendOk : Nat → Bool) (i : Nat) (p : Pool) :
    List (List RBNode) → SendStatus × Pool
  | [] => (.eslOK, p)
  | g :: gs =>
    let p' := recycleGroup g p
    if sendOk i then sendGroupsGo sendOk (i + 1) p' gs
    else (.eslFAIL, p')

/-- Modelled from the spec: `p7_mpi_send_and_recycle_unsorted_hits` (declared
at header line 150, body not in the available sources).  Takes the unsorted
chain of transport nodes, splits it into wire messages under the soft limit,
sends each message and recycles its nodes into the workernode pool as it is
finalized; returns `eslOK` if every send succeeds and `eslFAIL` if any
underlying send fails. -/
def p7_mpi_send_and_recycle_unsorted_hits (L : Nat) (sendOk : Nat → Bool)
    (hits : List RBNode) (workernode : Pool) : SendStatus × Pool :=
  sendGroupsGo sendOk 0 workernode
    (encodeGroups L (fun n => p7_hit_wire_size n.hit) hits)

/-! ### The chunk-merge algorithm (header lines 10-14; spec section 4.3) -/

inductive HLError where
  | OverlapViolation
deriving DecidableEq, Repr

/-- Modelled from the spec: the chunk-list half of `insert_chunk` — a linear
scan over the chunk list (header line 13: search the list of chunks until you
find the right place to insert the new chunk).  The new chunk is spliced in
where it lies entirely before the next chunk; a chunk lying entirely after the
current one is skipped; anything else is an intersection of ranges and the
scan fails. -/
def chunks_insert (c : P7_HIT_CHUNK) : List P7_HIT_CHUNK → Option (List P7_HIT_CHUNK)
  | [] => some [c]
  | x :: xs =>
    if c.end_id < x.start_id then some (c :: x :: xs)
    else if x.end_id < c.start_id then (chunks_insert c xs).map (fun ys => x :: ys)
    else none

/-- Modelled from the spec: the entry-list half of `insert_chunk` — splice the
chunk's run of hits into the full entry list (header line 14) at the position
where the run's `start_id` precedes the next entry's ID. -/
def entries_splice (sid : Nat) (run : List P7_HITLIST_ENTRY) :
    List P7_HITLIST_ENTRY → List P7_HITLIST_ENTRY
  | [] => run
  | e :: es =>
    if sid < e.hit.id then run ++ e :: es
    else e :: entries_splice sid run es

/-- Modelled from the spec: `insert_chunk list chunk` (spec section 4.3; header
lines 10-14).  Under the list's lock: locate the insertion point in the chunk
sequence, verify the chunk's `[start_id, end_id]` range intersects no existing
chunk's range (failing with `OverlapViolation` before any splice otherwise),
splice the chunk's entry run into the entry sequence and the chunk node into
the chunk sequence, and update the cached global bounds if the chunk extended
either end. -/
def insert_chunk (l : P7_HITLIST) (c : P7_HIT_CHUNK) :
    Except HLError P7_HITLIST :=
  match chunks_insert c l.chunks with
  | none => .error .OverlapViolation
  | some cs' =>
    .ok { entries := entries_splice c.start_id c.entries l.entries
          chunks := cs'
          hit_list_start_id :=
            if l.chunks.isEmpty then c.start_id
            else min l.hit_list_start_id c.start_id
          hit_list_end_id :=
            if l.chunks.isEmpty then c.end_id
            else max l.hit_list_end_id c.end_id }

/-- `insert_chunk` as a state transformer: the status produced and the list
state observable after the call (unchanged when the call fails). -/
def insert_chunk_checked (l : P7_HITLIST) (c : P7_HIT_CHUNK) :
    Option HLError × P7_HITLIST :=
  match insert_chunk l c with
  | .ok l' => (none, l')
  | .error e => (some e, l)

/-- Inserting a sequence of chunks in arrival order, stopping at the first
failure. -/
def insert_all (l : P7_HITLIST) : List P7_HIT_CHUNK → Except HLError P7_HITLIST
  | [] => .ok l
  | c :: cs =>
    match insert_chunk l c with
    | .ok l' => insert_all l' cs
    | .error e => .error e

/-- Strict ordering of chunks by `start_id`, used to state sortedness of the
chunk sequence. -/
def chunkLt (a b : P7_HIT_CHUNK) : Prop :=
  a.start_id < b.start_id

instance (a b : P7_HIT_CHUNK) : Decidable (chunkLt a b) :=
  inferInstanceAs (Decidable (_ < _))

instance : IsAntisymm P7_HIT_CHUNK chunkLt :=
  ⟨fun _a _b h h' => absurd h' (Nat.lt_asymm h)⟩

/-- The claim-level invariant on a hitlist's chunk sequence: sorted ascending
by `start_id`; ranges pairwise non-overlapping; chunks appear in the same
order as their entry runs appear in the entry sequence (the entry sequence is
their concatenation); and the chunk ranges claim exactly the IDs present —
each chunk's cached range is realized by its own first and last entry and
brackets exactly its entries' IDs, so the union of the ranges' claimed IDs is
exactly the IDs of the entry sequence. -/
def chunkSeqInvariant (l : P7_HITLIST) : Prop :=
  l.chunks.Pairwise chunkLt ∧
  l.chunks.Pairwise chunkDisjoint ∧
  l.entries = l.chunks.flatMap (fun c => c.entries) ∧
  (∀ c ∈ l.chunks,
    (entryIds c.entries).head? = some c.start_id ∧
    (entryIds c.entries).getLast? = some c.end_id ∧
    ∀ i ∈ entryIds c.entries, c.start_id ≤ i ∧ i ≤ c.end_id) ∧
  l.chunks.flatMap (fun c => entryIds c.entries) = entryIds l.entries

instance (l : P7_HITLIST) : Decidable (chunkSeqInvariant l) :=
  inferInstanceAs (Decidable (l.chunks.Pairwise chunkLt ∧
    l.chunks.Pairwise chunkDisjoint ∧
    l.entries = l.chunks.flatMap (fun c => c.entries) ∧
    (∀ c ∈ l.chunks,
      (entryIds c.entries).head? = some c.start_id ∧
      (entryIds c.entries).getLast? = some c.end_id ∧
      ∀ i ∈ entryIds c.entries, c.start_id ≤ i ∧ i ≤ c.end_id) ∧
    l.chunks.flatMap (fun c => entryIds c.entries) = entryIds l.entries))

/-! ### Helper lemmas -/

theorem strictAscend_iff (l : List Nat) :
    strictAscend l = true ↔ l.Chain' (· < ·) := by
  induction l with
  | nil => simp [strictAscend]
  | cons a t ih =>
    cases t with
    | nil => simp [strictAscend]
    | cons b t' => simp [strictAscend, List.chain'_cons, ih, and_comm]

theorem destroyEntries_spec (es : List P7_HITLIST_ENTRY) :
    destroyEntries es =
      { entryNodes := es.length, recordShells := es.length, chunkNodes := 0,
        shardBufferFrees := [] } := by
  induction es with
  | nil => rfl
  | cons e es ih =>
    simp [destroyEntries, ih, p7_hitlist_entry_Destroy, FreeLog.add, Nat.add_comm]

theorem destroyChunks_spec (cs : List P7_HIT_CHUNK) :
    destroyChunks cs =
      { entryNodes := 0, recordShells := 0, chunkNodes := cs.length,
        shardBufferFrees := [] } := by
  induction cs with
  | nil => rfl
  | cons c cs ih =>
    simp [destroyChunks, ih, FreeLog.add, Nat.add_comm]

theorem pool_acquire_many_le (fr : List Nat) (a k : Nat) (h : k ≤ fr.length) :
    pool_acquire_many { free := fr, totalAllocated := a } k =
      .ok (fr.take k, { free := fr.drop k, totalAllocated := a }) := by
  induction k generalizing fr with
  | zero => simp [pool_acquire_many]
  | succ k ih =>
    match fr with
    | [] => simp at h
    | n :: rest =>
      have hk : k ≤ rest.length := by simp at h; omega
      simp [pool_acquire_many, p7_get_hit_tree_entry_from_pool, ih rest hk]

theorem pool_acquire_many_exhausted (fr : List Nat) (a k : Nat)
    (h : fr.length < k) :
    pool_acquire_many { free := fr, totalAllocated := a } k =
      .error .PoolExhausted := by
  induction k generalizing fr with
  | zero => simp at h
  | succ k ih =>
    match fr with
    | [] => simp [pool_acquire_many, p7_get_hit_tree_entry_from_pool]
    | n :: rest =>
      have hk : rest.length < k := by simp at h; omega
      simp [pool_acquire_many, p7_get_hit_tree_entry_from_pool, ih rest hk]

/-! ### Claim theorems: creation, destruction, pool, chunk building -/

/-- C10: The HitList returned by `p7_hitlist_Create` is empty — its entry
sequence and chunk sequence contain no elements (start and end pointers of
both sequences are null), every ordering and partition invariant holds
vacuously, and the cached global `start_id`/`end_id` carry no claimed range
(they are zero-initialized with no chunk realizing them). -/
theorem create_returns_empty_hitlist :
    p7_hitlist_Create.entries = [] ∧
    p7_hitlist_Create.chunks = [] ∧
    p7_hitlist_Create.entries.head? = none ∧
    p7_hitlist_Create.entries.getLast? = none ∧
    p7_hitlist_Create.chunks.head? = none ∧
    p7_hitlist_Create.chunks.getLast? = none ∧
    p7_hitlist_Create.hit_list_start_id = 0 ∧
    p7_hitlist_Create.hit_list_end_id = 0 ∧
    hitlistWF p7_hitlist_Create ∧
    chunkSeqInvariant p7_hitlist_Create := by
  decide

/-- C9: Destroying a HitList releases exactly (#entries + #chunks) structural
nodes and frees zero shard-owned buffers; destroying a single entry releases
only the Entry and its embedded HitRecord shell, never the externally owned
shard buffers the record points into. -/
theorem destroy_release_counts (l : P7_HITLIST) :
    (p7_hitlist_Destroy l).entryNodes + (p7_hitlist_Destroy l).chunkNodes =
      l.entries.length + l.chunks.length ∧
    (p7_hitlist_Destroy l).entryNodes = l.entries.length ∧
    (p7_hitlist_Destroy l).chunkNodes = l.chunks.length ∧
    (p7_hitlist_Destroy l).shardBufferFrees = [] ∧
    (∀ e : P7_HITLIST_ENTRY,
      p7_hitlist_entry_Destroy e =
        { entryNodes := 1, recordShells := 1, chunkNodes := 0,
          shardBufferFrees := [] }) := by
  refine ⟨?_, ?_, ?_, ?_, fun e => rfl⟩ <;>
    simp [p7_hitlist_Destroy, destroyEntries_spec, destroyChunks_spec, FreeLog.add]

/-- C6: A pool created with capacity N services its first N acquisitions with
N pairwise-distinct free nodes, performing no allocation (the allocation count
stays at the N nodes preallocated at creation) while only advancing the free
list, which is exhausted afterwards; the (N+1)th acquisition without
replenishment fails with `PoolExhausted` instead of growing the pool. -/
theorem pool_exhaustion_after_capacity (N : Nat) :
    ∃ ns p', pool_acquire_many (p7_hitlist_entry_pool_Create N) N = .ok (ns, p') ∧
      ns.Nodup ∧ ns.length = N ∧
      p'.totalAllocated = N ∧ p'.free = [] ∧
      pool_acquire_many (p7_hitlist_entry_pool_Create N) (N + 1) =
        .error .PoolExhausted := by
  have htake : (List.range N).take N = List.range N :=
    List.take_of_length_le (by simp)
  have hdrop : (List.range N).drop N = [] :=
    List.drop_eq_nil_of_le (by simp)
  refine ⟨List.range N, { free := [], totalAllocated := N }, ?_,
    List.nodup_range N, by simp, rfl, rfl, ?_⟩
  · have h := pool_acquire_many_le (List.range N) N N (by simp)
    rw [htake, hdrop] at h
    exact h
  · exact pool_acquire_many_exhausted (List.range N) N (N + 1) (by simp)

/-- C8: For every well-formed chunk and entry with `entry.id > chunk.end_id`,
`chunk_append` appends the entry as the new last element, moves the end
pointer to it and `end_id` to its ID, leaves the previously present entries
and `start_id` (hence the start pointer) unchanged, and preserves the strict
ascending-by-ID, duplicate-free invariant; a chunk with no entries is the
empty/initial state, on which appending installs the entry as first and
last. -/
theorem chunk_append_spec (c : P7_HIT_CHUNK) (e : P7_HITLIST_ENTRY)
    (hc : chunkWF c) (h : c.end_id < e.hit.id) :
    (∃ c', chunk_append c e = some c' ∧
      c'.entries = c.entries ++ [e] ∧
      c'.entries.getLast? = some e ∧
      c'.end_id = e.hit.id ∧
      c'.start_id = c.start_id ∧
      c'.entries.dropLast = c.entries ∧
      chunkWF c') ∧
    (∀ e₀ : P7_HITLIST_ENTRY, chunk_append p7_hit_chunk_init e₀ =
      some { entries := [e₀], start_id := e₀.hit.id, end_id := e₀.hit.id }) := by
  obtain ⟨hne, hchain, hhead, hlast⟩ := hc
  refine ⟨?_, fun e₀ => rfl⟩
  have hemp : c.entries.isEmpty = false := by
    simpa [List.isEmpty_iff] using hne
  refine ⟨{ entries := c.entries ++ [e], start_id := c.start_id, end_id := e.hit.id },
    by simp [chunk_append, hemp, h], rfl, List.getLast?_concat _, rfl, rfl,
    List.dropLast_concat, by simp, ?_, ?_, ?_⟩
  · show strictAscend (entryIds (c.entries ++ [e])) = true
    rw [strictAscend_iff]
    have hids : entryIds (c.entries ++ [e]) = entryIds c.entries ++ [e.hit.id] := by
      simp [entryIds]
    rw [hids, List.chain'_append]
    refine ⟨(strictAscend_iff _).mp hchain, List.chain'_singleton _, ?_⟩
    intro x hx y hy
    simp at hy
    rw [hlast] at hx
    simp at hx
    simpa [hy, hx] using h
  · show (entryIds (c.entries ++ [e])).head? = some c.start_id
    have hids : entryIds (c.entries ++ [e]) = entryIds c.entries ++ [e.hit.id] := by
      simp [entryIds]
    rw [hids, List.head?_append_of_ne_nil]
    · exact hhead
    · simpa [entryIds] using hne
  · show (entryIds (c.entries ++ [e])).getLast? = some e.hit.id
    simp [entryIds]

/-- C8 witness: a concrete well-formed chunk and a larger-ID entry. -/
theorem chunk_append_spec_witness :
    (∃ c', chunk_append
        { entries := [{ hit := { id := 1, payloadSize := 0, shardRefs := [] } }],
          start_id := 1, end_id := 1 }
        { hit := { id := 5, payloadSize := 0, shardRefs := [] } } = some c' ∧
      c'.entries =
        [{ hit := { id := 1, payloadSize := 0, shardRefs := [] } }] ++
          [{ hit := { id := 5, payloadSize := 0, shardRefs := [] } }] ∧
      c'.entries.getLast? =
        some { hit := { id := 5, payloadSize := 0, shardRefs := [] } } ∧
      c'.end_id = 5 ∧
      c'.start_id = 1 ∧
      c'.entries.dropLast =
        [{ hit := { id := 1, payloadSize := 0, shardRefs := [] } }] ∧
      chunkWF c') ∧
    (∀ e₀ : P7_HITLIST_ENTRY, chunk_append p7_hit_chunk_init e₀ =
      some { entries := [e₀], start_id := e₀.hit.id, end_id := e₀.hit.id }) :=
  chunk_append_spec
    { entries := [{ hit := { id := 1, payloadSize := 0, shardRefs := [] } }],
      start_id := 1, end_id := 1 }
    { hit := { id := 5, payloadSize := 0, shardRefs := [] } }
    (by decide) (by decide)

/-! ### Codec helper lemmas -/

theorem encodeGo_nil {α : Type} (L : Nat) (sz : α → Nat) (cur : List α) :
    encodeGo L sz cur [] = if cur.isEmpty then [] else [cur] := rfl

theorem encodeGo_cons_nil_buf {α : Type} (L : Nat) (sz : α → Nat)
    (a : α) (t : List α) :
    encodeGo L sz [] (a :: t) = encodeGo L sz [a] t := rfl

theorem encodeGo_cons_fits {α : Type} (L : Nat) (sz : α → Nat)
    (cur : List α) (a : α) (t : List α) (hc : cur ≠ [])
    (hle : 8 + (cur.map sz).sum + sz a ≤ L) :
    encodeGo L sz cur (a :: t) = encodeGo L sz (cur ++ [a]) t := by
  have hemp : cur.isEmpty = false := by simpa [List.isEmpty_iff] using hc
  simp [encodeGo, hemp, hle]

theorem encodeGo_cons_over {α : Type} (L : Nat) (sz : α → Nat)
    (cur : List α) (a : α) (t : List α) (hc : cur ≠ [])
    (hle : ¬ (8 + (cur.map sz).sum + sz a ≤ L)) :
    encodeGo L sz cur (a :: t) = cur :: encodeGo L sz [a] t := by
  have hemp : cur.isEmpty = false := by simpa [List.isEmpty_iff] using hc
  simp [encodeGo, hemp, hle]

theorem encodeGo_flatten {α : Type} (L : Nat) (sz : α → Nat) :
    ∀ (t cur : List α), (encodeGo L sz cur t).flatten = cur ++ t := by
  intro t
  induction t with
  | nil =>
    intro cur
    by_cases hc : cur = []
    · subst hc; simp [encodeGo_nil]
    · simp [encodeGo_nil, List.isEmpty_iff, hc]
  | cons a t ih =>
    intro cur
    by_cases hc : cur = []
    · subst hc; simp [encodeGo_cons_nil_buf, ih]
    · by_cases hle : 8 + (cur.map sz).sum + sz a ≤ L
      · rw [encodeGo_cons_fits L sz cur a t hc hle, ih]
        simp
      · rw [encodeGo_cons_over L sz cur a t hc hle]
        simp [ih]

theorem encodeGo_groups_ok {α : Type} (L : Nat) (sz : α → Nat) :
    ∀ (t cur : List α),
      (cur = [] ∨ (cur ≠ [] ∧ (cur.length = 1 ∨ 8 + (cur.map sz).sum ≤ L))) →
      ∀ g ∈ encodeGo L sz cur t,
        g ≠ [] ∧ (g.length = 1 ∨ 8 + (g.map sz).sum ≤ L) := by
  intro t
  induction t with
  | nil =>
    intro cur hcur g hg
    by_cases hc : cur = []
    · subst hc; simp [encodeGo_nil] at hg
    · simp [encodeGo_nil, List.isEmpty_iff, hc] at hg
      subst hg
      rcases hcur with h | h
      · exact absurd h hc
      · exact h
  | cons a t ih =>
    intro cur hcur g hg
    by_cases hc : cur = []
    · subst hc
      rw [encodeGo_cons_nil_buf] at hg
      exact ih [a] (Or.inr ⟨by simp, Or.inl rfl⟩) g hg
    · by_cases hle : 8 + (cur.map sz).sum + sz a ≤ L
      · rw [encodeGo_cons_fits L sz cur a t hc hle] at hg
        refine ih (cur ++ [a]) (Or.inr ⟨by simp, Or.inr ?_⟩) g hg
        simpa [Nat.add_assoc] using hle
      · rw [encodeGo_cons_over L sz cur a t hc hle] at hg
        rcases List.mem_cons.mp hg with hg | hg
        · subst hg
          rcases hcur with h | h
          · exact absurd h hc
          · exact h
        · exact ih [a] (Or.inr ⟨by simp, Or.inl rfl⟩) g hg

theorem encodeGo_head_first {α : Type} (L : Nat) (sz : α → Nat) :
    ∀ (t cur : List α), cur ≠ [] →
      ∃ g gs, encodeGo L sz cur t = g :: gs ∧ g.head? = cur.head? := by
  intro t
  induction t with
  | nil =>
    intro cur hc
    exact ⟨cur, [], by simp [encodeGo_nil, List.isEmpty_iff, hc], rfl⟩
  | cons a t ih =>
    intro cur hc
    by_cases hle : 8 + (cur.map sz).sum + sz a ≤ L
    · obtain ⟨g, gs, heq, hhead⟩ := ih (cur ++ [a]) (by simp)
      refine ⟨g, gs, ?_, ?_⟩
      · rw [encodeGo_cons_fits L sz cur a t hc hle]
        exact heq
      · rw [hhead, List.head?_append_of_ne_nil _ hc]
    · exact ⟨cur, encodeGo L sz [a] t,
        encodeGo_cons_over L sz cur a t hc hle, rfl⟩

theorem encodeGo_chain {α : Type} (L : Nat) (sz : α → Nat) :
    ∀ (t cur : List α),
      (encodeGo L sz cur t).Chain'
        (fun g g' => L < 8 + (g.map sz).sum + firstRecordSize sz g') := by
  intro t
  induction t with
  | nil =>
    intro cur
    by_cases hc : cur = []
    · simp [hc, encodeGo_nil]
    · simp [encodeGo_nil, List.isEmpty_iff, hc]
  | cons a t ih =>
    intro cur
    by_cases hc : cur = []
    · subst hc
      rw [encodeGo_cons_nil_buf]
      exact ih [a]
    · by_cases hle : 8 + (cur.map sz).sum + sz a ≤ L
      · rw [encodeGo_cons_fits L sz cur a t hc hle]
        exact ih (cur ++ [a])
      · rw [encodeGo_cons_over L sz cur a t hc hle]
        obtain ⟨g, gs, heq, hhead⟩ := encodeGo_head_first L sz t [a] (by simp)
        rw [heq, List.chain'_cons]
        constructor
        · have hfirst : firstRecordSize sz g = sz a := by
            match g, hhead with
            | x :: _, hh => simp at hh; simp [firstRecordSize, hh]
          rw [hfirst]
          omega
        · have hch := ih [a]
          rw [heq] at hch
          exact hch

theorem decodeMessages_of_groups (gs : List (List P7_HIT)) :
    decodeMessages (gs.map (fun g => { hit_count := g.length, records := g })) =
      some gs.flatten := by
  induction gs with
  | nil => rfl
  | cons g gs ih => simp [decodeMessages, decodeMessage, ih]

theorem le_maxRecordSize (hits : List P7_HIT) (r : P7_HIT) (hr : r ∈ hits) :
    p7_hit_wire_size r ≤ maxRecordSize hits := by
  induction hits with
  | nil => simp at hr
  | cons h t ih =>
    rcases List.mem_cons.mp hr with h₁ | h₁
    · subst h₁; simp [maxRecordSize, List.foldr]
    · calc p7_hit_wire_size r ≤ maxRecordSize t := ih h₁
        _ ≤ maxRecordSize (h :: t) := by simp [maxRecordSize, List.foldr]

/-! ### Claim theorems: transport codec -/

/-- C4: For every batch of hits in the sender's transport order, decoding the
concatenation of all wire messages produced by the encode half of the send
operation yields a multiset of hit object IDs identical to the multiset of
the original hits: the encode/decode round trip neither drops nor duplicates
hits. -/
theorem encode_decode_roundtrip (L : Nat) (hits : List P7_HIT) :
    ∃ hs, decodeMessages (encodeHits L hits) = some hs ∧
      Multiset.ofList (hs.map P7_HIT.id) =
        Multiset.ofList (hits.map P7_HIT.id) := by
  refine ⟨(encodeGroups L p7_hit_wire_size hits).flatten, ?_, ?_⟩
  · exact decodeMessages_of_groups _
  · rw [show (encodeGroups L p7_hit_wire_size hits).flatten = hits from
      by simpa [encodeGroups] using encodeGo_flatten L p7_hit_wire_size hits []]

/-- C5: Under soft byte limit L (at least the 9 bytes needed to make the
count header strictly smaller than the limit), every wire message produced by
the encoder consists of a `uint64` hit-count header equal to the number of
serialized records it carries, carries at least one record, and no message's
size exceeds `L + max_single_record_size - 1` bytes; the batching is greedy —
a new message is started exactly when appending the next record would make
the current buffer exceed L, so each message together with the first record
of its successor exceeds L. -/
theorem message_format_and_bound (L : Nat) (hits : List P7_HIT) (hL : 9 ≤ L) :
    (∀ m ∈ encodeHits L hits,
      m.hit_count = m.records.length ∧
      m.records ≠ [] ∧
      messageSize m ≤ L + maxRecordSize hits - 1) ∧
    (encodeHits L hits).Chain' (fun m m' =>
      L < messageSize m + firstRecordSize p7_hit_wire_size m'.records) := by
  constructor
  · intro m hm
    rw [encodeHits] at hm
    obtain ⟨g, hg, hgm⟩ := List.mem_map.mp hm
    obtain ⟨hne, hok⟩ := encodeGo_groups_ok L p7_hit_wire_size hits [] (Or.inl rfl) g hg
    subst hgm
    refine ⟨rfl, hne, ?_⟩
    have hsub : ∀ r ∈ g, p7_hit_wire_size r ≤ maxRecordSize hits := by
      intro r hrg
      apply le_maxRecordSize
      have hmem : r ∈ (encodeGo L p7_hit_wire_size [] hits).flatten :=
        List.mem_flatten.mpr ⟨g, hg, hrg⟩
      rw [encodeGo_flatten] at hmem
      simpa using hmem
    obtain ⟨r, hr⟩ := List.exists_mem_of_ne_nil g hne
    have hrmax : p7_hit_wire_size r ≤ maxRecordSize hits := hsub r hr
    have hr8 : 8 ≤ p7_hit_wire_size r := Nat.le_add_right 8 _
    rcases hok with h1 | h1
    · match g, h1 with
      | [x], _ =>
        have hx : p7_hit_wire_size x ≤ maxRecordSize hits := hsub x (by simp)
        show 8 + ([x].map p7_hit_wire_size).sum ≤ L + maxRecordSize hits - 1
        simp only [List.map_cons, List.map_nil, List.sum_cons, List.sum_nil]
        omega
    · show 8 + (g.map p7_hit_wire_size).sum ≤ L + maxRecordSize hits - 1
      omega
  · rw [encodeHits, List.chain'_map]
    exact encodeGo_chain L p7_hit_wire_size hits []

/-- C5 witness: the source's configured limit and a concrete three-record
batch whose middle record forces a message split. -/
theorem message_format_and_bound_witness :
    (∀ m ∈ encodeHits HIT_MESSAGE_LIMIT
        [{ id := 1, payloadSize := 99990, shardRefs := [] },
         { id := 2, payloadSize := 50, shardRefs := [] },
         { id := 3, payloadSize := 10, shardRefs := [] }],
      m.hit_count = m.records.length ∧
      m.records ≠ [] ∧
      messageSize m ≤ HIT_MESSAGE_LIMIT +
        maxRecordSize
          [{ id := 1, payloadSize := 99990, shardRefs := [] },
           { id := 2, payloadSize := 50, shardRefs := [] },
           { id := 3, payloadSize := 10, shardRefs := [] }] - 1) ∧
    (encodeHits HIT_MESSAGE_LIMIT
        [{ id := 1, payloadSize := 99990, shardRefs := [] },
         { id := 2, payloadSize := 50, shardRefs := [] },
         { id := 3, payloadSize := 10, shardRefs := [] }]).Chain' (fun m m' =>
      HIT_MESSAGE_LIMIT <
        messageSize m + firstRecordSize p7_hit_wire_size m'.records) :=
  message_format_and_bound HIT_MESSAGE_LIMIT
    [{ id := 1, payloadSize := 99990, shardRefs := [] },
     { id := 2, payloadSize := 50, shardRefs := [] },
     { id := 3, payloadSize := 10, shardRefs := [] }]
    (by decide)

/-! ### Send/recycle helper lemmas -/

theorem sendGroupsGo_all_ok (sendOk : Nat → Bool) :
    ∀ (gs : List (List RBNode)) (i : Nat) (p : Pool),
      (∀ j, j < gs.length → sendOk (i + j) = true) →
      (sendGroupsGo sendOk i p gs).1 = .eslOK ∧
      (sendGroupsGo sendOk i p gs).2.free.Perm
        (gs.flatten.map (fun n => n.nodeId) ++ p.free) ∧
      (sendGroupsGo sendOk i p gs).2.totalAllocated = p.totalAllocated := by
  intro gs
  induction gs with
  | nil =>
    intro i p _
    exact ⟨rfl, by simp [sendGroupsGo], rfl⟩
  | cons g gs ih =>
    intro i p hok
    have h0 : sendOk i = true := by simpa using hok 0 (by simp)
    have hstep : sendGroupsGo sendOk i p (g :: gs) =
        sendGroupsGo sendOk (i + 1) (recycleGroup g p) gs := by
      simp [sendGroupsGo, h0]
    obtain ⟨h1, h2, h3⟩ := ih (i + 1) (recycleGroup g p) (fun j hj => by
      have hidx : i + 1 + j = i + (j + 1) := by omega
      rw [hidx]
      exact hok (j + 1) (by simpa using Nat.succ_lt_succ hj))
    rw [hstep]
    refine ⟨h1, ?_, by rw [h3]; rfl⟩
    have hrec : (recycleGroup g p).free = g.map (fun n => n.nodeId) ++ p.free := rfl
    rw [hrec] at h2
    refine h2.trans ?_
    have hperm :
        List.Perm
          (gs.flatten.map (fun n => n.nodeId) ++
            (g.map (fun n => n.nodeId) ++ p.free))
          ((g.map (fun n => n.nodeId) ++ gs.flatten.map (fun n => n.nodeId)) ++
            p.free) := by
      rw [← List.append_assoc]
      exact List.perm_append_comm.append_right p.free
    refine hperm.trans ?_
    simp

theorem sendGroupsGo_fail (sendOk : Nat → Bool) :
    ∀ (gs : List (List RBNode)) (i : Nat) (p : Pool),
      (∃ j, j < gs.length ∧ sendOk (i + j) = false) →
      (sendGroupsGo sendOk i p gs).1 = .eslFAIL := by
  intro gs
  induction gs with
  | nil =>
    intro i p h
    obtain ⟨j, hj, _⟩ := h
    simp at hj
  | cons g gs ih =>
    intro i p h
    obtain ⟨j, hj, hfail⟩ := h
    by_cases h0 : sendOk i = true
    · have hstep : sendGroupsGo sendOk i p (g :: gs) =
          sendGroupsGo sendOk (i + 1) (recycleGroup g p) gs := by
        simp [sendGroupsGo, h0]
      rw [hstep]
      apply ih
      match j, hj, hfail with
      | 0, _, hfail => exact absurd (by simpa using hfail) (by simp [h0])
      | j' + 1, hj, hfail =>
        refine ⟨j', by simpa using Nat.lt_of_succ_lt_succ (by simpa using hj), ?_⟩
        have hidx : i + 1 + j' = i + (j' + 1) := by omega
        rw [hidx]
        exact hfail
    · have h0f : sendOk i = false := by
        cases hcase : sendOk i
        · rfl
        · exact absurd hcase h0
      simp [sendGroupsGo, h0f]

/-! ### Claim theorem: send and recycle -/

/-- C7: For every list of hits given to the send operation: if every
underlying message send succeeds, the operation returns success and all
transport-ordering nodes have been recycled into the workernode's pool (the
sender retains no reference to them — the final pool's free list holds
exactly the original free nodes plus every sent node, each recycled as its
message was finalized, with no new allocation); if the underlying send fails
for any message, the operation returns the transport failure status. -/
theorem send_recycles_or_fails (L : Nat) (sendOk : Nat → Bool)
    (hits : List RBNode) (workernode : Pool) :
    ((∀ j, j < (encodeGroups L (fun n => p7_hit_wire_size n.hit) hits).length →
        sendOk j = true) →
      (p7_mpi_send_and_recycle_unsorted_hits L sendOk hits workernode).1 =
        .eslOK ∧
      (p7_mpi_send_and_recycle_unsorted_hits L sendOk hits workernode).2.free.Perm
        (hits.map (fun n => n.nodeId) ++ workernode.free) ∧
      (p7_mpi_send_and_recycle_unsorted_hits L sendOk hits
          workernode).2.totalAllocated = workernode.totalAllocated) ∧
    ((∃ j, j < (encodeGroups L (fun n => p7_hit_wire_size n.hit) hits).length ∧
        sendOk j = false) →
      (p7_mpi_send_and_recycle_unsorted_hits L sendOk hits workernode).1 =
        .eslFAIL) := by
  constructor
  · intro hok
    obtain ⟨h1, h2, h3⟩ := sendGroupsGo_all_ok sendOk
      (encodeGroups L (fun n => p7_hit_wire_size n.hit) hits) 0 workernode
      (fun j hj => by simpa using hok j hj)
    refine ⟨h1, ?_, h3⟩
    have hflat : (encodeGroups L (fun n => p7_hit_wire_size n.hit) hits).flatten =
        hits := by
      simpa [encodeGroups] using
        encodeGo_flatten L (fun n => p7_hit_wire_size n.hit) hits []
    rw [hflat] at h2
    exact h2
  · intro hfail
    obtain ⟨j, hj, hf⟩ := hfail
    exact sendGroupsGo_fail sendOk _ 0 workernode ⟨j, hj, by simpa using hf⟩

/-- C7 witness: one node, an always-succeeding transport. -/
theorem send_recycles_or_fails_witness :
    (p7_mpi_send_and_recycle_unsorted_hits HIT_MESSAGE_LIMIT (fun _ => true)
        [{ nodeId := 7, hit := { id := 1, payloadSize := 0, shardRefs := [] } }]
        { free := [3], totalAllocated := 2 }).1 = .eslOK ∧
    (p7_mpi_send_and_recycle_unsorted_hits HIT_MESSAGE_LIMIT (fun _ => true)
        [{ nodeId := 7, hit := { id := 1, payloadSize := 0, shardRefs := [] } }]
        { free := [3], totalAllocated := 2 }).2.free.Perm
      (List.map (fun n : RBNode => n.nodeId)
          [{ nodeId := 7, hit := { id := 1, payloadSize := 0, shardRefs := [] } }]
        ++ [3]) ∧
    (p7_mpi_send_and_recycle_unsorted_hits HIT_MESSAGE_LIMIT (fun _ => true)
        [{ nodeId := 7, hit := { id := 1, payloadSize := 0, shardRefs := [] } }]
        { free := [3], totalAllocated := 2 }).2.totalAllocated = 2 :=
  (send_recycles_or_fails HIT_MESSAGE_LIMIT (fun _ => true)
    [{ nodeId := 7, hit := { id := 1, payloadSize := 0, shardRefs := [] } }]
    { free := [3], totalAllocated := 2 }).1 (fun _ _ => rfl)

/-! ### Order and bounds helper lemmas for the merge algorithm -/

theorem chain_head_last_bounds :
    ∀ (l : List Nat) (a b : Nat), l.Chain' (· < ·) →
      l.head? = some a → l.getLast? = some b →
      a ≤ b ∧ ∀ i ∈ l, a ≤ i ∧ i ≤ b := by
  intro l
  induction l with
  | nil => intro a b _ ha; simp at ha
  | cons x t ih =>
    intro a b hchain ha hb
    have hax : a = x := by simpa using ha.symm
    subst hax
    cases t with
    | nil =>
      have hbx : b = a := by simpa using hb.symm
      subst hbx
      exact ⟨Nat.le_refl _, by intro i hi; simp at hi; simp [hi]⟩
    | cons y t' =>
      rw [List.chain'_cons] at hchain
      obtain ⟨hxy, hchain'⟩ := hchain
      have hb' : (y :: t').getLast? = some b := by
        simpa [List.getLast?_cons_cons] using hb
      obtain ⟨hyb, hall⟩ := ih y b hchain' rfl hb'
      refine ⟨Nat.le_trans (Nat.le_of_lt hxy) hyb, ?_⟩
      intro i hi
      rcases List.mem_cons.mp hi with hi | hi
      · subst hi
        exact ⟨Nat.le_refl _, Nat.le_trans (Nat.le_of_lt hxy) hyb⟩
      · obtain ⟨h1, h2⟩ := hall i hi
        exact ⟨Nat.le_trans (Nat.le_of_lt hxy) h1, h2⟩

theorem chunkWF_bounds (c : P7_HIT_CHUNK) (hc : chunkWF c) :
    c.start_id ≤ c.end_id ∧
    ∀ e ∈ c.entries, c.start_id ≤ e.hit.id ∧ e.hit.id ≤ c.end_id := by
  obtain ⟨hne, hasc, hhead, hlast⟩ := hc
  obtain ⟨h1, h2⟩ := chain_head_last_bounds (entryIds c.entries) c.start_id c.end_id
    ((strictAscend_iff _).mp hasc) hhead hlast
  refine ⟨h1, ?_⟩
  intro e he
  exact h2 e.hit.id (List.mem_map_of_mem _ he)

theorem chunkWF_head (c : P7_HIT_CHUNK) (hc : chunkWF c) :
    ∃ e₀ es', c.entries = e₀ :: es' ∧ e₀.hit.id = c.start_id := by
  obtain ⟨hne, _, hhead, _⟩ := hc
  match hcase : c.entries with
  | [] => exact absurd hcase hne
  | e₀ :: es' =>
    rw [hcase] at hhead
    simp [entryIds] at hhead
    exact ⟨e₀, es', rfl, hhead⟩

theorem entries_splice_cons_lt (sid : Nat) (run : List P7_HITLIST_ENTRY)
    (e : P7_HITLIST_ENTRY) (es : List P7_HITLIST_ENTRY) (h : sid < e.hit.id) :
    entries_splice sid run (e :: es) = run ++ e :: es := by
  simp [entries_splice, h]

theorem entries_splice_cons_ge (sid : Nat) (run : List P7_HITLIST_ENTRY)
    (e : P7_HITLIST_ENTRY) (es : List P7_HITLIST_ENTRY) (h : ¬ sid < e.hit.id) :
    entries_splice sid run (e :: es) = e :: entries_splice sid run es := by
  simp [entries_splice, h]

theorem entries_splice_skip (sid : Nat) (run : List P7_HITLIST_ENTRY)
    (es₂ : List P7_HITLIST_ENTRY) :
    ∀ es₁ : List P7_HITLIST_ENTRY, (∀ e ∈ es₁, ¬ sid < e.hit.id) →
      entries_splice sid run (es₁ ++ es₂) = es₁ ++ entries_splice sid run es₂ := by
  intro es₁
  induction es₁ with
  | nil => intro _; rfl
  | cons e es ih =>
    intro h
    rw [List.cons_append, entries_splice_cons_ge sid run e _ (h e (by simp)),
      ih (fun e' he' => h e' (by simp [he']))]
    rfl

theorem entryIds_flatMap (cs : List P7_HIT_CHUNK) :
    entryIds (cs.flatMap (fun c => c.entries)) =
      cs.flatMap (fun c => entryIds c.entries) := by
  induction cs with
  | nil => rfl
  | cons x xs ih =>
    simp only [entryIds] at ih ⊢
    simp [List.flatMap_cons, ih]

theorem flatMap_head_start (xs : List P7_HIT_CHUNK)
    (hwf : ∀ x ∈ xs, chunkWF x) :
    ∀ b ∈ (entryIds (xs.flatMap (fun c => c.entries))).head?,
      ∃ y ∈ xs, b = y.start_id := by
  induction xs with
  | nil => simp [entryIds]
  | cons y ys ih =>
    intro b hb
    obtain ⟨e₀, es', hent, hid⟩ := chunkWF_head y (hwf y (by simp))
    rw [List.flatMap_cons, hent] at hb
    simp only [entryIds, List.map_append, List.map_cons, List.cons_append,
      List.head?_cons, Option.mem_def, Option.some.injEq] at hb
    exact ⟨y, by simp, by rw [← hb, hid]⟩

theorem flatMap_entries_chain :
    ∀ (cs : List P7_HIT_CHUNK), (∀ x ∈ cs, chunkWF x) →
      cs.Pairwise chunkBefore →
      (entryIds (cs.flatMap (fun c => c.entries))).Chain' (· < ·) := by
  intro cs
  induction cs with
  | nil => intro _ _; simp [entryIds]
  | cons x xs ih =>
    intro hwf hpw
    rw [List.pairwise_cons] at hpw
    obtain ⟨hxall, hpw'⟩ := hpw
    have hx : chunkWF x := hwf x (by simp)
    rw [List.flatMap_cons]
    have hids : entryIds (x.entries ++ xs.flatMap (fun c => c.entries)) =
        entryIds x.entries ++ entryIds (xs.flatMap (fun c => c.entries)) := by
      simp [entryIds]
    rw [hids, List.chain'_append]
    refine ⟨(strictAscend_iff _).mp hx.2.1, ih (fun y hy => hwf y (by simp [hy])) hpw', ?_⟩
    intro a ha b hb
    have hax : a = x.end_id := by
      have hl := hx.2.2.2
      rw [hl] at ha
      exact (by simpa using ha : x.end_id = a).symm
    obtain ⟨y, hy, hby⟩ := flatMap_head_start xs (fun y hy => hwf y (by simp [hy])) b hb
    subst hax
    rw [hby]
    exact hxall y hy

/-! ### Chunk-list insertion lemmas -/

theorem chunks_insert_nil (c : P7_HIT_CHUNK) : chunks_insert c [] = some [c] := rfl

theorem chunks_insert_cons_front (c x : P7_HIT_CHUNK) (xs : List P7_HIT_CHUNK)
    (h : c.end_id < x.start_id) :
    chunks_insert c (x :: xs) = some (c :: x :: xs) := by
  simp [chunks_insert, h]

theorem chunks_insert_cons_skip (c x : P7_HIT_CHUNK) (xs : List P7_HIT_CHUNK)
    (h1 : ¬ c.end_id < x.start_id) (h2 : x.end_id < c.start_id) :
    chunks_insert c (x :: xs) = (chunks_insert c xs).map (fun ys => x :: ys) := by
  simp [chunks_insert, h1, h2]

theorem chunks_insert_cons_overlap (c x : P7_HIT_CHUNK) (xs : List P7_HIT_CHUNK)
    (h1 : ¬ c.end_id < x.start_id) (h2 : ¬ x.end_id < c.start_id) :
    chunks_insert c (x :: xs) = none := by
  simp [chunks_insert, h1, h2]

theorem chunks_insert_ok :
    ∀ (cs : List P7_HIT_CHUNK) (c : P7_HIT_CHUNK),
      (∀ x ∈ cs, chunkWF x) → chunkWF c → cs.Pairwise chunkBefore →
      (∀ x ∈ cs, chunkDisjoint c x) →
      ∃ cs', chunks_insert c cs = some cs' ∧
        cs'.Perm (c :: cs) ∧
        cs'.Pairwise chunkBefore ∧
        (cs = [] → cs' = [c]) ∧
        (∀ x₀, cs.head? = some x₀ →
          cs'.head? = some (if c.end_id < x₀.start_id then c else x₀)) ∧
        (∀ xL, cs.getLast? = some xL →
          cs'.getLast? = some (if xL.end_id < c.start_id then c else xL)) := by
  intro cs
  induction cs with
  | nil =>
    intro c _ _ _ _
    exact ⟨[c], rfl, List.Perm.refl _, by simp, fun h => rfl, by simp, by simp⟩
  | cons x xs ih =>
    intro c hwf hc hpw hdis
    rw [List.pairwise_cons] at hpw
    obtain ⟨hxall, hpw'⟩ := hpw
    have hx : chunkWF x := hwf x (by simp)
    have hcb : c.start_id ≤ c.end_id := (chunkWF_bounds c hc).1
    have hxb : x.start_id ≤ x.end_id := (chunkWF_bounds x hx).1
    by_cases hbr : c.end_id < x.start_id
    · refine ⟨c :: x :: xs, chunks_insert_cons_front c x xs hbr,
        List.Perm.refl _, ?_, by simp, ?_, ?_⟩
      · rw [List.pairwise_cons]
        refine ⟨?_, List.pairwise_cons.mpr ⟨hxall, hpw'⟩⟩
        intro y hy
        rcases List.mem_cons.mp hy with hy | hy
        · subst hy; exact hbr
        · rcases hdis y (by simp [hy]) with h | h
          · exact h
          · exfalso
            have hxy := hxall y hy
            have hyb : y.start_id ≤ y.end_id :=
              (chunkWF_bounds y (hwf y (by simp [hy]))).1
            simp only [chunkBefore] at hxy
            omega
      · intro x₀ h₀
        have hx0 : x₀ = x := by simpa using h₀.symm
        subst hx0
        simp [hbr]
      · intro xL hL
        have hmemL : xL ∈ x :: xs := List.mem_of_getLast?_eq_some hL
        have hcond : ¬ xL.end_id < c.start_id := by
          rcases List.mem_cons.mp hmemL with hm | hm
          · subst hm; omega
          · have hxy := hxall xL hm
            have hyb : xL.start_id ≤ xL.end_id :=
              (chunkWF_bounds xL (hwf xL (by simp [hm]))).1
            simp only [chunkBefore] at hxy
            omega
        rw [if_neg hcond, List.getLast?_cons_cons]
        exact hL
    · have hskip : x.end_id < c.start_id := by
        rcases hdis x (by simp) with h | h
        · exact absurd h hbr
        · exact h
      obtain ⟨cs'', heq, hperm, hpw'', hnil, hhead, hlast⟩ :=
        ih c (fun y hy => hwf y (by simp [hy])) hc hpw'
          (fun y hy => hdis y (by simp [hy]))
      refine ⟨x :: cs'', ?_, ?_, ?_, by simp, ?_, ?_⟩
      · rw [chunks_insert_cons_skip c x xs hbr hskip, heq]
        rfl
      · exact (hperm.cons x).trans (List.Perm.swap c x xs)
      · rw [List.pairwise_cons]
        refine ⟨?_, hpw''⟩
        intro y hy
        have hy' : y ∈ c :: xs := hperm.mem_iff.mp hy
        rcases List.mem_cons.mp hy' with hy' | hy'
        · subst hy'
          exact hskip
        · exact hxall y hy'
      · intro x₀ h₀
        have hx0 : x₀ = x := by simpa using h₀.symm
        subst hx0
        rw [if_neg hbr]
        rfl
      · intro xL hL
        cases hxs : xs with
        | nil =>
          subst hxs
          have hxL : xL = x := by simpa using hL.symm
          subst hxL
          rw [hnil rfl, if_pos hskip]
          rfl
        | cons z zs =>
          subst hxs
          have hL' : (z :: zs).getLast? = some xL := by
            simpa [List.getLast?_cons_cons] using hL
          have hres := hlast xL hL'
          have hne'' : cs'' ≠ [] := by
            intro hcnil
            rw [hcnil] at hperm
            exact absurd hperm.length_eq (by simp)
          match cs'', hne'', hres with
          | w :: ws, _, hres =>
            rw [List.getLast?_cons_cons]
            exact hres

theorem chunks_insert_overlap_none :
    ∀ (cs : List P7_HIT_CHUNK) (c : P7_HIT_CHUNK),
      (∀ x ∈ cs, chunkWF x) → cs.Pairwise chunkBefore →
      (∃ x ∈ cs, ¬ chunkDisjoint c x) →
      chunks_insert c cs = none := by
  intro cs
  induction cs with
  | nil =>
    intro c _ _ hov
    obtain ⟨y, hy, _⟩ := hov
    simp at hy
  | cons x xs ih =>
    intro c hwf hpw hov
    rw [List.pairwise_cons] at hpw
    obtain ⟨hxall, hpw'⟩ := hpw
    obtain ⟨y, hy, hndis⟩ := hov
    by_cases hbr : c.end_id < x.start_id
    · exfalso
      apply hndis
      rcases List.mem_cons.mp hy with hm | hm
      · subst hm
        exact Or.inl hbr
      · have hxy := hxall y hm
        have hxb : x.start_id ≤ x.end_id := (chunkWF_bounds x (hwf x (by simp))).1
        simp only [chunkBefore] at hxy
        exact Or.inl (by omega)
    · by_cases hskip : x.end_id < c.start_id
      · rw [chunks_insert_cons_skip c x xs hbr hskip]
        have hyxs : y ∈ xs := by
          rcases List.mem_cons.mp hy with hm | hm
          · subst hm
            exact absurd (Or.inr hskip) hndis
          · exact hm
        rw [ih c (fun z hz => hwf z (by simp [hz])) hpw' ⟨y, hyxs, hndis⟩]
        rfl
      · exact chunks_insert_cons_overlap c x xs hbr hskip

theorem chunks_insert_some_disjoint :
    ∀ (cs : List P7_HIT_CHUNK) (c : P7_HIT_CHUNK) (cs' : List P7_HIT_CHUNK),
      (∀ x ∈ cs, chunkWF x) → cs.Pairwise chunkBefore →
      chunks_insert c cs = some cs' →
      ∀ x ∈ cs, chunkDisjoint c x := by
  intro cs
  induction cs with
  | nil =>
    intro c cs' _ _ _ x hx
    simp at hx
  | cons x xs ih =>
    intro c cs' hwf hpw heq y hy
    rw [List.pairwise_cons] at hpw
    obtain ⟨hxall, hpw'⟩ := hpw
    by_cases hbr : c.end_id < x.start_id
    · rcases List.mem_cons.mp hy with hm | hm
      · subst hm
        exact Or.inl hbr
      · have hxy := hxall y hm
        have hxb : x.start_id ≤ x.end_id := (chunkWF_bounds x (hwf x (by simp))).1
        simp only [chunkBefore] at hxy
        exact Or.inl (by omega)
    · by_cases hskip : x.end_id < c.start_id
      · rcases List.mem_cons.mp hy with hm | hm
        · subst hm
          exact Or.inr hskip
        · rw [chunks_insert_cons_skip c x xs hbr hskip] at heq
          match hrec : chunks_insert c xs, heq with
          | some cs'', _ =>
            exact ih c cs'' (fun z hz => hwf z (by simp [hz])) hpw' hrec y hm
      · rw [chunks_insert_cons_overlap c x xs hbr hskip] at heq
        exact absurd heq (by simp)

/-! ### Entry splice aligns with chunk splice -/

theorem flatMap_splice :
    ∀ (cs : List P7_HIT_CHUNK) (c : P7_HIT_CHUNK) (cs' : List P7_HIT_CHUNK),
      (∀ x ∈ cs, chunkWF x) → chunkWF c → cs.Pairwise chunkBefore →
      chunks_insert c cs = some cs' →
      entries_splice c.start_id c.entries (cs.flatMap (fun x => x.entries)) =
        cs'.flatMap (fun x => x.entries) := by
  intro cs
  induction cs with
  | nil =>
    intro c cs' _ hc _ heq
    rw [chunks_insert_nil] at heq
    injection heq with heq'
    subst heq'
    simp [entries_splice]
  | cons x xs ih =>
    intro c cs' hwf hc hpw heq
    rw [List.pairwise_cons] at hpw
    obtain ⟨hxall, hpw'⟩ := hpw
    have hx : chunkWF x := hwf x (by simp)
    by_cases hbr : c.end_id < x.start_id
    · rw [chunks_insert_cons_front c x xs hbr] at heq
      injection heq with heq'
      subst heq'
      obtain ⟨e₀, es', hent, hid⟩ := chunkWF_head x hx
      have hcb : c.start_id ≤ c.end_id := (chunkWF_bounds c hc).1
      rw [List.flatMap_cons, hent, List.cons_append,
        entries_splice_cons_lt _ _ _ _ (by rw [hid]; omega),
        List.flatMap_cons, List.flatMap_cons, hent]
      simp
    · by_cases hskip : x.end_id < c.start_id
      · rw [chunks_insert_cons_skip c x xs hbr hskip] at heq
        match hrec : chunks_insert c xs, heq with
        | some cs'', heq =>
          simp only [Option.map_some', Option.some.injEq] at heq
          subst heq
          have hcond : ∀ e ∈ x.entries, ¬ c.start_id < e.hit.id := by
            intro e he
            have hb := (chunkWF_bounds x hx).2 e he
            omega
          rw [List.flatMap_cons, entries_splice_skip _ _ _ x.entries hcond,
            ih c cs'' (fun z hz => hwf z (by simp [hz])) hc hpw' hrec,
            List.flatMap_cons]
      · rw [chunks_insert_cons_overlap c x xs hbr hskip] at heq
        exact absurd heq (by simp)

/-! ### The single-chunk insertion lemma -/

theorem insert_chunk_ok (l : P7_HITLIST) (c : P7_HIT_CHUNK)
    (hl : hitlistWF l) (hc : chunkWF c)
    (hd : ∀ x ∈ l.chunks, chunkDisjoint c x) :
    ∃ l', insert_chunk l c = .ok l' ∧ hitlistWF l' ∧
      l'.chunks.Perm (c :: l.chunks) := by
  obtain ⟨hwfs, hpw, hent, hbounds⟩ := hl
  obtain ⟨cs', heq, hperm, hpw', hnil, hhead, hlast⟩ :=
    chunks_insert_ok l.chunks c hwfs hc hpw hd
  have hsplice := flatMap_splice l.chunks c cs' hwfs hc hpw heq
  have hcb : c.start_id ≤ c.end_id := (chunkWF_bounds c hc).1
  have hne' : cs' ≠ [] := by
    intro h
    rw [h] at hperm
    exact absurd hperm.length_eq (by simp)
  refine ⟨{ entries := entries_splice c.start_id c.entries l.entries
            hit_list_start_id :=
              if l.chunks.isEmpty then c.start_id
              else min l.hit_list_start_id c.start_id
            hit_list_end_id :=
              if l.chunks.isEmpty then c.end_id
              else max l.hit_list_end_id c.end_id
            chunks := cs' }, by simp [insert_chunk, heq], ?_, hperm⟩
  refine ⟨?_, hpw', ?_, ?_⟩
  · intro y hy
    rcases List.mem_cons.mp (hperm.mem_iff.mp hy) with hy' | hy'
    · exact hy' ▸ hc
    · exact hwfs y hy'
  · show entries_splice c.start_id c.entries l.entries =
      cs'.flatMap (fun x => x.entries)
    rw [hent]
    exact hsplice
  · have hemp' : cs'.isEmpty = false := by
      simpa [List.isEmpty_iff] using hne'
    show if cs'.isEmpty then _ ∧ _ else _ ∧ _
    rw [hemp']
    simp only [Bool.false_eq_true, if_false]
    cases hch : l.chunks with
    | nil =>
      rw [hnil hch]
      simp [hch]
    | cons x₀ rest =>
      rw [hch] at hbounds
      simp only [List.isEmpty_cons, Bool.false_eq_true, if_false,
        List.head?_cons, Option.map_some', Option.some.injEq] at hbounds
      obtain ⟨hstart, hend⟩ := hbounds
      cases hxL : (x₀ :: rest).getLast? with
      | none => simp at hxL
      | some xL =>
        rw [hxL] at hend
        simp only [Option.map_some', Option.some.injEq] at hend
        have hmemL : xL ∈ x₀ :: rest := List.mem_of_getLast?_eq_some hxL
        have hxLwf := hwfs xL (by rw [hch]; exact hmemL)
        have hxLb := (chunkWF_bounds xL hxLwf).1
        have hx₀wf := hwfs x₀ (by rw [hch]; simp)
        have hx₀b := (chunkWF_bounds x₀ hx₀wf).1
        have hdx₀ := hd x₀ (by rw [hch]; simp)
        have hdxL := hd xL (by rw [hch]; exact hmemL)
        constructor
        · have hh := hhead x₀ (by rw [hch]; rfl)
          rw [hh]
          simp only [hch, List.isEmpty_cons, Bool.false_eq_true, if_false,
            Option.map_some', Option.some.injEq]
          by_cases hbr : c.end_id < x₀.start_id
          · rw [if_pos hbr]
            simp only [chunkDisjoint] at hdx₀
            omega
          · have hx0e : x₀.end_id < c.start_id := by
              rcases hdx₀ with h | h
              · exact absurd h hbr
              · exact h
            rw [if_neg hbr]
            omega
        · have hlst := hlast xL (by rw [hch]; exact hxL)
          rw [hlst]
          simp only [hch, List.isEmpty_cons, Bool.false_eq_true, if_false,
            Option.map_some', Option.some.injEq]
          by_cases hLs : xL.end_id < c.start_id
          · rw [if_pos hLs]
            omega
          · have hLe : c.end_id < xL.start_id := by
              rcases hdxL with h | h
              · exact h
              · exact absurd h hLs
            rw [if_neg hLs]
            omega

/-! ### Well-formed hitlists: sortedness, uniqueness, global order -/

theorem hitlistWF_chunkLt (l : P7_HITLIST) (hl : hitlistWF l) :
    l.chunks.Pairwise chunkLt := by
  obtain ⟨hwfs, hpw, _, _⟩ := hl
  refine hpw.imp_of_mem ?_
  intro a b ha hb hab
  have hb' := (chunkWF_bounds a (hwfs a ha)).1
  simp only [chunkBefore] at hab
  have hbb := (chunkWF_bounds b (hwfs b hb)).1
  show a.start_id < b.start_id
  omega

theorem hitlist_eq_of_wf_perm (l₁ l₂ : P7_HITLIST) (h₁ : hitlistWF l₁)
    (h₂ : hitlistWF l₂) (hp : l₁.chunks.Perm l₂.chunks) : l₁ = l₂ := by
  have hs₁ : l₁.chunks.Sorted chunkLt := hitlistWF_chunkLt l₁ h₁
  have hs₂ : l₂.chunks.Sorted chunkLt := hitlistWF_chunkLt l₂ h₂
  have hchunks : l₁.chunks = l₂.chunks := List.eq_of_perm_of_sorted hp hs₁ hs₂
  obtain ⟨_, _, hent₁, hb₁⟩ := h₁
  obtain ⟨_, _, hent₂, hb₂⟩ := h₂
  have hentries : l₁.entries = l₂.entries := by
    rw [hent₁, hent₂, hchunks]
  rw [hchunks] at hb₁
  have hstart : l₁.hit_list_start_id = l₂.hit_list_start_id := by
    cases hch : l₂.chunks with
    | nil =>
      rw [hch] at hb₁ hb₂
      simp only [List.isEmpty_nil, if_true] at hb₁ hb₂
      rw [hb₁.1, hb₂.1]
    | cons x r =>
      rw [hch] at hb₁ hb₂
      simp only [List.isEmpty_cons, Bool.false_eq_true, if_false,
        List.head?_cons, Option.map_some', Option.some.injEq] at hb₁ hb₂
      rw [← hb₁.1, ← hb₂.1]
  have hend : l₁.hit_list_end_id = l₂.hit_list_end_id := by
    cases hch : l₂.chunks with
    | nil =>
      rw [hch] at hb₁ hb₂
      simp only [List.isEmpty_nil, if_true] at hb₁ hb₂
      rw [hb₁.2, hb₂.2]
    | cons x r =>
      rw [hch] at hb₁ hb₂
      simp only [List.isEmpty_cons, Bool.false_eq_true, if_false] at hb₁ hb₂
      have he₁ := hb₁.2
      rw [hb₂.2] at he₁
      exact (Option.some.injEq _ _ ▸ he₁).symm
  cases l₁ with
  | mk e₁ s₁ t₁ c₁ =>
    cases l₂ with
    | mk e₂ s₂ t₂ c₂ =>
      simp only at hchunks hentries hstart hend
      rw [hchunks, hentries, hstart, hend]

theorem insert_all_ok :
    ∀ (cs : List P7_HIT_CHUNK) (l : P7_HITLIST),
      hitlistWF l → (∀ c ∈ cs, chunkWF c) → cs.Pairwise chunkDisjoint →
      (∀ c ∈ cs, ∀ x ∈ l.chunks, chunkDisjoint c x) →
      ∃ l', insert_all l cs = .ok l' ∧ hitlistWF l' ∧
        l'.chunks.Perm (cs ++ l.chunks) := by
  intro cs
  induction cs with
  | nil =>
    intro l hl _ _ _
    exact ⟨l, rfl, hl, by simp⟩
  | cons c cs ihs =>
    intro l hl hwf hpwd hdall
    obtain ⟨l₁, heq₁, hwf₁, hperm₁⟩ := insert_chunk_ok l c hl (hwf c (by simp))
      (fun x hx => hdall c (by simp) x hx)
    rw [List.pairwise_cons] at hpwd
    obtain ⟨hcall, hpwd'⟩ := hpwd
    have hdnext : ∀ c' ∈ cs, ∀ x ∈ l₁.chunks, chunkDisjoint c' x := by
      intro c' hc' x hx
      have hx' : x ∈ c :: l.chunks := hperm₁.mem_iff.mp hx
      rcases List.mem_cons.mp hx' with hx' | hx'
      · subst hx'
        rcases hcall c' hc' with h | h
        · exact Or.inr h
        · exact Or.inl h
      · exact hdall c' (by simp [hc']) x hx'
    obtain ⟨l', heq', hwf', hperm'⟩ := ihs l₁ hwf₁
      (fun c' hc' => hwf c' (by simp [hc'])) hpwd' hdnext
    refine ⟨l', ?_, hwf', ?_⟩
    · show insert_all l (c :: cs) = .ok l'
      simp [insert_all, heq₁, heq']
    · refine hperm'.trans ?_
      have h1 : List.Perm (cs ++ l₁.chunks) (cs ++ (c :: l.chunks)) :=
        hperm₁.append_left cs
      exact h1.trans List.perm_middle

theorem hitlistWF_entries_ascending (l : P7_HITLIST) (hl : hitlistWF l) :
    (entryIds l.entries).Chain' (· < ·) := by
  obtain ⟨hwfs, hpw, hent, _⟩ := hl
  rw [hent]
  exact flatMap_entries_chain l.chunks hwfs hpw

theorem wf_chunkSeqInvariant (l : P7_HITLIST) (hl : hitlistWF l) :
    chunkSeqInvariant l := by
  refine ⟨hitlistWF_chunkLt l hl, ?_, hl.2.2.1, ?_, ?_⟩
  · exact hl.2.1.imp (fun h => Or.inl h)
  · intro x hx
    have hxwf := hl.1 x hx
    refine ⟨hxwf.2.2.1, hxwf.2.2.2, ?_⟩
    intro i hi
    obtain ⟨e, he, hei⟩ := List.mem_map.mp hi
    have hb := (chunkWF_bounds x hxwf).2 e he
    exact hei ▸ hb
  · rw [hl.2.2.1]
    exact (entryIds_flatMap l.chunks).symm

/-! ### Claim theorems: the chunk-merge algorithm -/

/-- C1: For every sequence of chunks with pairwise non-overlapping ID ranges,
each internally strictly ascending (well-formed), inserting them into an
initially empty HitList via `insert_chunk` in any arrival order succeeds and
yields an Entry sequence that is globally ascending by object ID with no
duplicates, and the resulting list is identical regardless of insertion
order — the merge is commutative for disjoint-range inputs. -/
theorem insert_chunks_order_invariant (cs cs' : List P7_HIT_CHUNK)
    (hwf : ∀ c ∈ cs, chunkWF c) (hdisj : cs.Pairwise chunkDisjoint)
    (hperm : cs'.Perm cs) :
    ∃ l, insert_all p7_hitlist_Create cs = .ok l ∧
      insert_all p7_hitlist_Create cs' = .ok l ∧
      (entryIds l.entries).Chain' (· < ·) ∧
      (entryIds l.entries).Nodup := by
  have hcr : hitlistWF p7_hitlist_Create := by decide
  obtain ⟨l₁, he₁, hw₁, hp₁⟩ := insert_all_ok cs p7_hitlist_Create hcr hwf hdisj
    (by intro c hc x hx; simp [p7_hitlist_Create] at hx)
  have hwf' : ∀ c ∈ cs', chunkWF c := fun c hc => hwf c (hperm.mem_iff.mp hc)
  have hdisj' : cs'.Pairwise chunkDisjoint :=
    (List.Perm.pairwise_iff (fun h => Or.symm h) hperm).mpr hdisj
  obtain ⟨l₂, he₂, hw₂, hp₂⟩ := insert_all_ok cs' p7_hitlist_Create hcr hwf' hdisj'
    (by intro c hc x hx; simp [p7_hitlist_Create] at hx)
  simp only [p7_hitlist_Create, List.append_nil] at hp₁ hp₂
  have hll : l₂ = l₁ :=
    hitlist_eq_of_wf_perm l₂ l₁ hw₂ hw₁
      ((hp₂.trans hperm).trans hp₁.symm)
  have hasc := hitlistWF_entries_ascending l₁ hw₁
  refine ⟨l₁, he₁, hll ▸ he₂, hasc, ?_⟩
  have hpair : (entryIds l₁.entries).Pairwise (· < ·) :=
    List.chain'_iff_pairwise.mp hasc
  exact hpair.imp (fun h => Nat.ne_of_lt h)

/-- C1 witness: the chunks {3,4} and {1} inserted in both orders produce the
same list with entries 1,3,4. -/
theorem insert_chunks_order_invariant_witness :
    ∃ l, insert_all p7_hitlist_Create
        [{ entries := [{ hit := { id := 3, payloadSize := 0, shardRefs := [] } },
                       { hit := { id := 4, payloadSize := 0, shardRefs := [] } }],
           start_id := 3, end_id := 4 },
         { entries := [{ hit := { id := 1, payloadSize := 0, shardRefs := [] } }],
           start_id := 1, end_id := 1 }] = .ok l ∧
      insert_all p7_hitlist_Create
        [{ entries := [{ hit := { id := 1, payloadSize := 0, shardRefs := [] } }],
           start_id := 1, end_id := 1 },
         { entries := [{ hit := { id := 3, payloadSize := 0, shardRefs := [] } },
                       { hit := { id := 4, payloadSize := 0, shardRefs := [] } }],
           start_id := 3, end_id := 4 }] = .ok l ∧
      (entryIds l.entries).Chain' (· < ·) ∧
      (entryIds l.entries).Nodup :=
  insert_chunks_order_invariant
    [{ entries := [{ hit := { id := 3, payloadSize := 0, shardRefs := [] } },
                   { hit := { id := 4, payloadSize := 0, shardRefs := [] } }],
       start_id := 3, end_id := 4 },
     { entries := [{ hit := { id := 1, payloadSize := 0, shardRefs := [] } }],
       start_id := 1, end_id := 1 }]
    [{ entries := [{ hit := { id := 1, payloadSize := 0, shardRefs := [] } }],
       start_id := 1, end_id := 1 },
     { entries := [{ hit := { id := 3, payloadSize := 0, shardRefs := [] } },
                   { hit := { id := 4, payloadSize := 0, shardRefs := [] } }],
       start_id := 3, end_id := 4 }]
    (by decide) (by decide)
    (List.Perm.swap
      ({ entries := [{ hit := { id := 3, payloadSize := 0, shardRefs := [] } },
                     { hit := { id := 4, payloadSize := 0, shardRefs := [] } }],
         start_id := 3, end_id := 4 } : P7_HIT_CHUNK)
      ({ entries := [{ hit := { id := 1, payloadSize := 0, shardRefs := [] } }],
         start_id := 1, end_id := 1 } : P7_HIT_CHUNK)
      [])

/-- C2: For every well-formed HitList and every chunk whose
`[start_id, end_id]` range intersects the range of some chunk already in the
list, `insert_chunk` returns `OverlapViolation` and the observable list state
after the failed call is the original list — no entry splice, no chunk
splice, no bounds update. -/
theorem insert_chunk_overlap_rejected (l : P7_HITLIST) (c : P7_HIT_CHUNK)
    (hl : hitlistWF l) (hov : ∃ x ∈ l.chunks, ¬ chunkDisjoint c x) :
    insert_chunk l c = .error .OverlapViolation ∧
    insert_chunk_checked l c = (some .OverlapViolation, l) := by
  have hnone := chunks_insert_overlap_none l.chunks c hl.1 hl.2.1 hov
  constructor
  · simp [insert_chunk, hnone]
  · simp [insert_chunk_checked, insert_chunk, hnone]

/-- C2 witness: a one-chunk list and a chunk with the identical range. -/
theorem insert_chunk_overlap_rejected_witness :
    insert_chunk
      { entries := [{ hit := { id := 1, payloadSize := 0, shardRefs := [] } }],
        hit_list_start_id := 1, hit_list_end_id := 1,
        chunks := [{ entries := [{ hit := { id := 1, payloadSize := 0, shardRefs := [] } }],
                     start_id := 1, end_id := 1 }] }
      { entries := [{ hit := { id := 1, payloadSize := 7, shardRefs := [] } }],
        start_id := 1, end_id := 1 } = .error .OverlapViolation ∧
    insert_chunk_checked
      { entries := [{ hit := { id := 1, payloadSize := 0, shardRefs := [] } }],
        hit_list_start_id := 1, hit_list_end_id := 1,
        chunks := [{ entries := [{ hit := { id := 1, payloadSize := 0, shardRefs := [] } }],
                     start_id := 1, end_id := 1 }] }
      { entries := [{ hit := { id := 1, payloadSize := 7, shardRefs := [] } }],
        start_id := 1, end_id := 1 } =
      (some .OverlapViolation,
       { entries := [{ hit := { id := 1, payloadSize := 0, shardRefs := [] } }],
         hit_list_start_id := 1, hit_list_end_id := 1,
         chunks := [{ entries := [{ hit := { id := 1, payloadSize := 0, shardRefs := [] } }],
                      start_id := 1, end_id := 1 }] }) :=
  insert_chunk_overlap_rejected
    { entries := [{ hit := { id := 1, payloadSize := 0, shardRefs := [] } }],
      hit_list_start_id := 1, hit_list_end_id := 1,
      chunks := [{ entries := [{ hit := { id := 1, payloadSize := 0, shardRefs := [] } }],
                   start_id := 1, end_id := 1 }] }
    { entries := [{ hit := { id := 1, payloadSize := 7, shardRefs := [] } }],
      start_id := 1, end_id := 1 }
    (by decide) (by decide)

/-- C3: The chunk-sequence invariant — chunks sorted ascending by `start_id`,
ranges pairwise non-overlapping and in the same order as their entry runs
appear in the entry sequence, and the chunk ranges claiming exactly the IDs
present in the entry sequence — holds for the freshly created hitlist and is
preserved by every successful `insert_chunk` of a well-formed chunk into a
well-formed list (destruction builds no list state, so it cannot violate
it). -/
theorem hitlist_chunk_invariants (l : P7_HITLIST) (c : P7_HIT_CHUNK)
    (l' : P7_HITLIST) (hl : hitlistWF l) (hc : chunkWF c)
    (hins : insert_chunk l c = .ok l') :
    chunkSeqInvariant p7_hitlist_Create ∧ hitlistWF l' ∧
      chunkSeqInvariant l' := by
  refine ⟨by decide, ?_⟩
  have hd : ∀ x ∈ l.chunks, chunkDisjoint c x := by
    have hins' := hins
    unfold insert_chunk at hins'
    match hcase : chunks_insert c l.chunks, hins' with
    | some cs', _ =>
      exact chunks_insert_some_disjoint l.chunks c cs' hl.1 hl.2.1 hcase
    | none, hins' =>
      simp at hins'
  obtain ⟨l'', heq, hwf'', _⟩ := insert_chunk_ok l c hl hc hd
  have hll : l'' = l' := by
    rw [heq] at hins
    exact (Except.ok.injEq _ _ ▸ hins)
  rw [← hll]
  exact ⟨hwf'', wf_chunkSeqInvariant l'' hwf''⟩

/-- C3 witness: inserting one chunk into the fresh list. -/
theorem hitlist_chunk_invariants_witness :
    chunkSeqInvariant p7_hitlist_Create ∧
    hitlistWF
      { entries := [{ hit := { id := 2, payloadSize := 0, shardRefs := [] } }],
        hit_list_start_id := 2, hit_list_end_id := 2,
        chunks := [{ entries := [{ hit := { id := 2, payloadSize := 0, shardRefs := [] } }],
                     start_id := 2, end_id := 2 }] } ∧
    chunkSeqInvariant
      { entries := [{ hit := { id := 2, payloadSize := 0, shardRefs := [] } }],
        hit_list_start_id := 2, hit_list_end_id := 2,
        chunks := [{ entries := [{ hit := { id := 2, payloadSize := 0, shardRefs := [] } }],
                     start_id := 2, end_id := 2 }] } :=
  hitlist_chunk_invariants p7_hitlist_Create
    { entries := [{ hit := { id := 2, payloadSize := 0, shardRefs := [] } }],
      start_id := 2, end_id := 2 }
    { entries := [{ hit := { id := 2, payloadSize := 0, shardRefs := [] } }],
      hit_list_start_id := 2, hit_list_end_id := 2,
      chunks := [{ entries := [{ hit := { id := 2, payloadSize := 0, shardRefs := [] } }],
                   start_id := 2, end_id := 2 }] }
    (by decide) (by decide) rfl

end P7Hitlist
